import Mathlib

/-!
Shallow embedding of `imodels/greedy_rule_list.py` (class
`GreedyRuleListClassifier`) and proofs about it.

Modelling conventions:
* numeric values (features, labels, criterion scores) are rationals `ℚ`;
  numpy's `nan` (mean of an empty slice, degenerate correlations) is
  modelled by `Option ℚ` with `none` for `nan`, matching IEEE semantics
  where every comparison against `nan` is false;
* a Python function that can raise is modelled in `Except PyErr`, and a
  Python function that can return the value `None` returns `PyVal.noneV`;
* the transcendental helpers (`entropy_from_counts`, `np.corrcoef`) are
  not rational-valued, so they are parameters of the model (`Config.ec`,
  `Config.cc`); no theorem below depends on their values;
* Python `set` iteration order is implementation defined; it is modelled
  by `List.dedup` over the column.
-/

namespace GreedyRuleList

/-- Python exceptions that the modelled code can raise. -/
inductive PyErr where
  | unboundLocal : PyErr
  | typeError : PyErr
  | attributeError : PyErr
  | keyError : PyErr
  deriving Repr, DecidableEq

/-- A Python value that is either a number, `nan`, or `None`. -/
inductive PyVal where
  | num : ℚ → PyVal
  | nan : PyVal
  | noneV : PyVal
  deriving Repr, DecidableEq

/-- Configuration of a `GreedyRuleListClassifier` instance: the constructor
arguments, plus the two transcendental helpers the model abstracts over
(`ec` stands for `entropy_from_counts`, `cc` for the off-diagonal entry of
`np.corrcoef`, with `none` standing for `nan`). -/
structure Config where
  criterion : String
  class_weight : Option (List (ℚ × ℚ))
  max_depth : ℕ
  ec : ℕ → ℕ → ℚ
  cc : List ℚ → List ℚ → Option ℚ

/-- Numpy boolean-mask selection `y[mask]`. -/
def maskSel (mask : List Bool) (y : List α) : List α :=
  (mask.zip y).filterMap (fun p => if p.1 then some p.2 else none)

/-- Model of Python `set(l)` as a duplicate-free list; iteration order of a
Python set is implementation defined, here it is `List.dedup`'s order. -/
def pyset (l : List ℚ) : List ℚ := l.dedup

/-- Model of `np.mean`, with `none` for the `nan` produced on empty input. -/
def npMean (l : List ℚ) : Option ℚ :=
  if l.length = 0 then none else some (l.sum / (l.length : ℚ))

/-- Source `all_same`: `all(x == items[0] for x in items)`. -/
def all_same (items : List ℚ) : Bool :=
  items.all (fun v => decide (v = items.headD 0))

/-- Source `gini_criterion`: `sum over classes of p_c * (1 - p_c)`. -/
def gini_criterion (y : List ℚ) : ℚ :=
  (pyset y).foldl
    (fun s c =>
      let p_c : ℚ := ((y.count c : ℕ) : ℚ) / ((y.length : ℕ) : ℚ)
      s + p_c * (1 - p_c)) 0

/-- Source `entropy_criterion`: per class, `(count/n) * entropy_from_counts
(count_eq, count_ne)`; the transcendental `entropy_from_counts` is the
abstract parameter `ec`. -/
def entropy_criterion (ec : ℕ → ℕ → ℚ) (y : List ℚ) : ℚ :=
  (pyset y).foldl
    (fun s c =>
      let n_eq : ℕ := y.count c
      let n_ne : ℕ := y.countP (fun v => decide (v ≠ c))
      s + ((n_eq : ℚ) / ((y.length : ℕ) : ℚ)) * ec n_eq n_ne) 0

/-- Source `neg_corr_criterion`: returns `0` when `y` has fewer than two
distinct values, otherwise orients `y` and negates the correlation
coefficient (the abstract parameter `cc`, `none` for `nan`). -/
def neg_corr_criterion (cc : List ℚ → List ℚ → Option ℚ)
    (split_decision : List Bool) (y : List ℚ) : PyVal :=
  if (pyset y).length < 2 then PyVal.num 0
  else
    let y' := if y.sum < ((y.length : ℕ) : ℚ) / 2 then y.map (fun v => 1 - v) else y
    match cc (split_decision.map (fun b => if b then 1 else 0)) y' with
    | some r => PyVal.num (-r)
    | none => PyVal.nan

/-- Source per-row `sample_weights`: ones, then for each key of
`class_weight` (in order) overwrite the weight of rows whose label equals
that key. -/
def sampleWeights (cw : Option (List (ℚ × ℚ))) (y : List ℚ) : List ℚ :=
  match cw with
  | Option.none => y.map (fun _ => (1 : ℚ))
  | Option.some cwl =>
      y.map (fun v => cwl.foldl (fun w p => if v = p.1 then p.2 else w) (1 : ℚ))

/-- Source `weighted_criterion`. A length mismatch prints a message and
returns Python `None` (`PyVal.noneV`); an unrecognised criterion name
leaves `criterion_func` unbound, raising `UnboundLocalError` at its call
site. -/
def weighted_criterion (cfg : Config) (split_decision : List Bool)
    (y_real : List ℚ) : Except PyErr PyVal :=
  if split_decision.length ≠ y_real.length then Except.ok PyVal.noneV
  else if cfg.criterion = "neg_corr" then
    Except.ok (neg_corr_criterion cfg.cc split_decision y_real)
  else if cfg.criterion = "entropy" ∨ cfg.criterion = "gini" then
    let criterion_func :=
      if cfg.criterion = "entropy" then entropy_criterion cfg.ec else gini_criterion
    let s_left := criterion_func (maskSel split_decision y_real)
    let s_right := criterion_func (maskSel (split_decision.map not) y_real)
    let sample_weights := sampleWeights cfg.class_weight y_real
    let tot_weight := sample_weights.sum
    let weight_left := (maskSel split_decision sample_weights).sum / tot_weight
    let weight_right := (maskSel (split_decision.map not) sample_weights).sum / tot_weight
    Except.ok (PyVal.num (weight_left * s_left + weight_right * s_right))
  else Except.error PyErr.unboundLocal

/-- Loop body of `split_on_feature`: fold over the candidate cutoffs with
accumulator `(min_criterion_val, cutoff)`.  Comparing Python `None` against
a float raises `TypeError`; every comparison against `nan` is false. -/
def sofLoop (cfg : Config) (col : List ℚ) (y : List ℚ) :
    List ℚ → ℚ × ℚ → Except PyErr (ℚ × ℚ)
  | [], acc => Except.ok acc
  | value :: rest, acc =>
      match weighted_criterion cfg (col.map (fun v => decide (v < value))) y with
      | Except.error e => Except.error e
      | Except.ok (PyVal.num q) =>
          if q ≤ acc.1 then sofLoop cfg col y rest (q, value)
          else sofLoop cfg col y rest acc
      | Except.ok PyVal.nan => sofLoop cfg col y rest acc
      | Except.ok PyVal.noneV => Except.error PyErr.typeError

/-- Source `split_on_feature`: scan the distinct values of the column,
starting from `min_criterion_val = 1e10`, `cutoff = 0.5`; a candidate
overwrites the best on `<=`. Returns `(min_criterion_val, cutoff)`. -/
def split_on_feature (cfg : Config) (col : List ℚ) (y : List ℚ) :
    Except PyErr (ℚ × ℚ) :=
  sofLoop cfg col y (pyset col) ((10 : ℚ) ^ 10, 1 / 2)

/-- Loop body of `find_best_split`: walk the remaining columns carrying the
running column index and the best `(col, cutoff, min_criterion_val)`;
return immediately on a criterion value of exactly `0`, otherwise update
on `<=`. -/
def fbsLoop (cfg : Config) (y : List ℚ) :
    ℕ → List (List ℚ) → Option ℕ × Option ℚ × ℚ →
    Except PyErr (Option ℕ × Option ℚ × ℚ)
  | _, [], best => Except.ok best
  | i, c :: rest, best =>
      match split_on_feature cfg c y with
      | Except.error e => Except.error e
      | Except.ok (criterion_val, cur_cutoff) =>
          if criterion_val = 0 then
            Except.ok (some i, some cur_cutoff, criterion_val)
          else if criterion_val ≤ best.2.2 then
            fbsLoop cfg y (i + 1) rest (some i, some cur_cutoff, criterion_val)
          else fbsLoop cfg y (i + 1) rest best

/-- Source `find_best_split` expressed over an explicit list of columns. -/
def find_best_split_cols (cfg : Config) (cols : List (List ℚ)) (y : List ℚ) :
    Except PyErr (Option ℕ × Option ℚ × ℚ) :=
  fbsLoop cfg y 0 cols (Option.none, Option.none, (10 : ℚ) ^ 10)

/-- Number of columns of a row-major matrix (`x.shape[1]`). -/
def nCols (x : List (List ℚ)) : ℕ := (x.headD []).length

/-- The columns of a row-major matrix (`x.T`). -/
def columnsOf (x : List (List ℚ)) : List (List ℚ) :=
  (List.range (nCols x)).map (fun j => x.map (fun row => row.getD j 0))

/-- Source `find_best_split` on a row-major matrix. -/
def find_best_split (cfg : Config) (x : List (List ℚ)) (y : List ℚ) :
    Except PyErr (Option ℕ × Option ℚ × ℚ) :=
  find_best_split_cols cfg (columnsOf x) y

/-- A fitted rule node: either the leaf record `{'val', 'num_pts'}` or the
split record `{'index_col', 'cutoff', 'val', 'flip', 'val_right',
'num_pts', 'num_pts_right'}` (the redundant display name `'col'` is
omitted).  `val_right` is `Option ℚ` because `np.mean` of an empty right
partition is `nan`. -/
inductive Rule where
  | leaf (val : ℚ) (num_pts : ℕ)
  | split (index_col : ℕ) (cutoff : ℚ) (val : ℚ) (flip : Bool)
      (val_right : Option ℚ) (num_pts : ℕ) (num_pts_right : ℕ)
  deriving Repr, DecidableEq

/-- Source `fit` (the recursive rule-list builder; the pandas/feature-name
adaptation layer is out of scope per the spec), with an explicit fuel
argument making the recursion structural.  The recursion of the source
terminates because `depth` grows toward `max_depth`; `fit` below passes
`max_depth - depth` as fuel, so the `fuel = 0` branch is reached only when
the depth-ceiling test has already returned (see `fitGo_fuel_irrelevant`).
Base cases in source order: empty partition, pure partition, depth
ceiling.  Otherwise: best split, partition on `x[:, col] < cutoff` /
`>= cutoff`, flip when `np.mean(y_left) > np.mean(y_right)` (false
whenever either side is empty, by `nan` comparison semantics), emit the
split node, recurse on the left partition at `depth + 1`. -/
def fitGo (cfg : Config) : ℕ → List (List ℚ) → List ℚ → ℕ →
    Except PyErr (List Rule)
  | fuel, x, y, depth =>
    if y.length = 0 then Except.ok []
    else if all_same y then Except.ok [Rule.leaf (y.headD 0) y.length]
    else if cfg.max_depth ≤ depth then Except.ok []
    else
      match find_best_split cfg x y with
      | Except.error e => Except.error e
      | Except.ok (Option.none, _, _) => Except.error PyErr.typeError
      | Except.ok (Option.some _, Option.none, _) => Except.error PyErr.typeError
      | Except.ok (Option.some col, Option.some cutoff, _) =>
          let colVals := x.map (fun row => row.getD col 0)
          let y_left0 := maskSel (colVals.map (fun t => decide (t < cutoff))) y
          let y_right0 := maskSel (colVals.map (fun t => decide (t ≥ cutoff))) y
          let flip : Bool :=
            match npMean y_left0, npMean y_right0 with
            | some a, some b => decide (b < a)
            | _, _ => false
          let y_left := if flip then y_right0 else y_left0
          let y_right := if flip then y_left0 else y_right0
          let x_left :=
            if flip then x.filter (fun row => decide (row.getD col 0 ≥ cutoff))
            else x.filter (fun row => decide (row.getD col 0 < cutoff))
          let node := Rule.split col cutoff (y.sum / ((y.length : ℕ) : ℚ)) flip
            (npMean y_right) y.length y_right.length
          match fuel with
          | 0 => Except.ok []
          | fuel' + 1 =>
              match fitGo cfg fuel' x_left y_left (depth + 1) with
              | Except.error e => Except.error e
              | Except.ok rest => Except.ok (node :: rest)

/-- Source `fit`: run `fitGo` with fuel `max_depth - depth`, which is
positive whenever the recursive branch is entered (see
`fitGo_fuel_irrelevant`), so the fuel cutoff never fires. -/
def fit (cfg : Config) (x : List (List ℚ)) (y : List ℚ) (depth : ℕ) :
    Except PyErr (List Rule) :=
  fitGo cfg (cfg.max_depth - depth) x y depth


/-- The instance attribute `self.rules_` after a top-level call of `fit`:
the three base cases return without assigning `self.rules_`; the recursive
branch assigns the full returned list on success; when `fit` raises, no
call on the (linear) recursion path completes, so no assignment happens. -/
def rulesAfterFit (cfg : Config) (x : List (List ℚ)) (y : List ℚ) (depth : ℕ)
    (old : Option (List Rule)) : Option (List Rule) :=
  if y.length = 0 ∨ all_same y ∨ cfg.max_depth ≤ depth then old
  else
    match fit cfg x y depth with
    | Except.ok r => some r
    | Except.error _ => old

/-- The `rule['val']` field. -/
def ruleVal : Rule → ℚ
  | Rule.leaf v _ => v
  | Rule.split _ _ v _ _ _ _ => v

/-- Inner loop of `predict_proba` for one row: walk the rule list in order;
at the last node assign `rule['val']`; at an earlier node assign
`rule['val']` and break when `x[rule['index_col']] >= rule['cutoff']`;
accessing `rule['index_col']` on a leaf record raises `KeyError`.  `acc`
is the running `probs[i]`, initially `0`. -/
def predRow (row : List ℚ) : List Rule → ℚ → Except PyErr ℚ
  | [], acc => Except.ok acc
  | [r], _ => Except.ok (ruleVal r)
  | r :: rest, acc =>
      match r with
      | Rule.leaf _ _ => Except.error PyErr.keyError
      | Rule.split index_col cutoff v _ _ _ _ =>
          if row.getD index_col 0 ≥ cutoff then Except.ok v
          else predRow row rest acc

/-- Source `predict_proba`: the `self.rules_` attribute is read inside the
per-row loop, so on an instance that never assigned it the
`AttributeError` is raised at the first row — and a zero-row input
returns the empty result without raising.  Each row yields
`(1 - p, p)`. -/
def predict_proba (rules? : Option (List Rule)) (X : List (List ℚ)) :
    Except PyErr (List (ℚ × ℚ)) :=
  ((X.mapM (fun row =>
      match rules? with
      | Option.none => Except.error PyErr.attributeError
      | Option.some rules => predRow row rules 0) :
    Except PyErr (List ℚ))).map
    (fun ps => ps.map (fun p => (1 - p, p)))

/-- Source `predict`: `(predict_proba(X) > 0.5).argmax(axis=1)`. -/
def predict (rules? : Option (List Rule)) (X : List (List ℚ)) :
    Except PyErr (List ℕ) :=
  (predict_proba rules? X).map
    (fun ps => ps.map (fun p => if p.1 > 1 / 2 then 0 else if p.2 > 1 / 2 then 1 else 0))

/-- The default configuration used by concrete evaluations: `gini`, no
class weights, `max_depth = 5`, arbitrary values for the abstract
transcendental helpers (never consulted by the gini criterion). -/
def giniCfg : Config :=
  { criterion := "gini", class_weight := Option.none, max_depth := 5,
    ec := fun _ _ => 0, cc := fun _ _ => Option.none }

/-! Helper lemmas. -/

lemma all_same_of_mem_eq {y : List ℚ} {v : ℚ} (hne : y ≠ [])
    (h : ∀ u ∈ y, u = v) : all_same y = true := by
  cases y with
  | nil => exact absurd rfl hne
  | cons a t =>
      have ha : a = v := h a (List.mem_cons_self a t)
      simp only [all_same, List.headD_cons, List.all_eq_true, decide_eq_true_eq]
      intro u hu
      rw [h u hu, ha]

lemma all_same_false_of_two {y : List ℚ} {a b : ℚ} (ha : a ∈ y) (hb : b ∈ y)
    (hab : a ≠ b) : all_same y = false := by
  by_contra h
  have h' : all_same y = true := by
    cases hh : all_same y with
    | false => exact absurd hh h
    | true => rfl
  simp only [all_same, List.all_eq_true, decide_eq_true_eq] at h'
  exact hab ((h' a ha).trans (h' b hb).symm)

lemma length_ne_zero_of_mem {y : List ℚ} {a : ℚ} (ha : a ∈ y) : y.length ≠ 0 := by
  cases y with
  | nil => cases ha
  | cons _ _ => simp

lemma predict_proba_none_of_ne_nil (X : List (List ℚ)) (hX : X ≠ []) :
    predict_proba Option.none X = Except.error PyErr.attributeError := by
  obtain ⟨r, X2, rfl⟩ := List.exists_cons_of_ne_nil hX
  rfl

lemma predict_none_of_ne_nil (X : List (List ℚ)) (hX : X ≠ []) :
    predict Option.none X = Except.error PyErr.attributeError := by
  unfold predict
  rw [predict_proba_none_of_ne_nil X hX]
  rfl

/-! Claim theorems. -/

/-- C2 (counterexample): called on a split mask of length 1 and a label
vector of length 2, `weighted_criterion` does not raise: it returns
normally, with the Python value `None`, refuting the claim that a length
mismatch raises a fatal error and does not return a value. -/
theorem weighted_criterion_mismatch_counterexample :
    weighted_criterion giniCfg [true] [0, 1] = Except.ok PyVal.noneV := by
  with_unfolding_all rfl

/-- C2 (amended): on every mismatched split-mask/label pair, the weighted
criterion computation prints a message and returns the defaulted value
`None` instead of raising. -/
theorem weighted_criterion_mismatch_returns_none (cfg : Config)
    (mask : List Bool) (y : List ℚ) (h : mask.length ≠ y.length) :
    weighted_criterion cfg mask y = Except.ok PyVal.noneV := by
  unfold weighted_criterion
  rw [if_pos h]

/-- C2 (witness): the amended theorem applied at a concrete mismatched
input. -/
theorem weighted_criterion_mismatch_returns_none_witness :
    weighted_criterion giniCfg [true, false] [5] = Except.ok PyVal.noneV :=
  weighted_criterion_mismatch_returns_none giniCfg [true, false] [5] (by decide)

/-- C7: on a nonempty label vector whose entries are all equal, `fit`
returns exactly one leaf node carrying the common label and the length of
the label vector. -/
theorem fit_pure_single_leaf (cfg : Config) (x : List (List ℚ)) (y : List ℚ)
    (depth : ℕ) (v : ℚ) (hne : y ≠ []) (h : ∀ u ∈ y, u = v) :
    fit cfg x y depth = Except.ok [Rule.leaf v y.length] := by
  have hlen : y.length ≠ 0 := by
    cases y with
    | nil => exact absurd rfl hne
    | cons _ _ => simp
  have hhd : y.headD 0 = v := by
    cases y with
    | nil => exact absurd rfl hne
    | cons a t => exact h a (List.mem_cons_self a t)
  unfold fit fitGo
  rw [if_neg hlen, if_pos (all_same_of_mem_eq hne h), hhd]

/-- C7 (witness): the pure-label theorem applied at a concrete input. -/
theorem fit_pure_single_leaf_witness :
    fit giniCfg [[1], [2]] [3, 3] 0 = Except.ok [Rule.leaf 3 2] :=
  fit_pure_single_leaf giniCfg [[1], [2]] [3, 3] 0 3 (by decide) (by decide)

/-- C8 (counterexample): after `fit` with `max_depth = 0` on a non-pure
label vector leaves the fresh instance without `rules_`, calling
`predict_proba` or `predict` on a zero-row input matrix returns an empty
result without raising — `self.rules_` is only read inside the per-row
loop — refuting the claim that such a call always raises rather than
returning. -/
theorem fit_depth_zero_predict_empty_counterexample :
    fit { giniCfg with max_depth := 0 } [[1], [2]] [0, 1] 0 = Except.ok [] ∧
    rulesAfterFit { giniCfg with max_depth := 0 } [[1], [2]] [0, 1] 0
      Option.none = Option.none ∧
    predict_proba Option.none ([] : List (List ℚ)) = Except.ok [] ∧
    predict Option.none ([] : List (List ℚ)) = Except.ok [] := by
  refine ⟨by with_unfolding_all rfl, by with_unfolding_all rfl, rfl, rfl⟩

/-- C8 (amended): with `max_depth = 0` and a non-pure label vector, `fit`
returns the empty rule list; `self.rules_` stays unassigned, so
`predict_proba` and `predict` on a fresh instance raise `AttributeError`
instead of returning a prediction whenever the input matrix has at least
one row (a zero-row input returns the empty result without raising). -/
theorem fit_depth_zero_empty_and_predict_raises (cfg : Config)
    (x X : List (List ℚ)) (y : List ℚ) (a b : ℚ)
    (ha : a ∈ y) (hb : b ∈ y) (hab : a ≠ b) (hmd : cfg.max_depth = 0)
    (hX : X ≠ []) :
    fit cfg x y 0 = Except.ok [] ∧
    rulesAfterFit cfg x y 0 Option.none = Option.none ∧
    predict_proba Option.none X = Except.error PyErr.attributeError ∧
    predict Option.none X = Except.error PyErr.attributeError := by
  have hlen : y.length ≠ 0 := length_ne_zero_of_mem ha
  have hsame : all_same y = false := all_same_false_of_two ha hb hab
  have hdep : cfg.max_depth ≤ 0 := le_of_eq hmd
  have hsame' : ¬ (all_same y = true) := by simp [hsame]
  refine ⟨?_, ?_, predict_proba_none_of_ne_nil X hX,
    predict_none_of_ne_nil X hX⟩
  · unfold fit fitGo
    rw [if_neg hlen, if_neg hsame', if_pos hdep]
  · unfold rulesAfterFit
    rw [if_pos (Or.inr (Or.inr hdep))]

/-- C8 (witness): the amended depth-zero theorem applied at a concrete
non-pure input with a one-row prediction matrix. -/
theorem fit_depth_zero_empty_and_predict_raises_witness :
    fit { giniCfg with max_depth := 0 } [[1], [2]] [0, 1] 0 = Except.ok [] ∧
    rulesAfterFit { giniCfg with max_depth := 0 } [[1], [2]] [0, 1] 0 Option.none =
      Option.none ∧
    predict_proba Option.none [[5]] = Except.error PyErr.attributeError ∧
    predict Option.none [[5]] = Except.error PyErr.attributeError :=
  fit_depth_zero_empty_and_predict_raises { giniCfg with max_depth := 0 }
    [[1], [2]] [[5]] [0, 1] 0 1 (by decide) (by decide) (by decide) rfl
    (by decide)

/-- C9: `fit` is a pure function of its inputs, so two calls on identical
inputs return identical rule sequences, and re-running the fit state
update (`self.rules_`) a second time on the same inputs leaves the fitted
state unchanged. -/
theorem fit_deterministic_and_refit_idempotent (cfg : Config)
    (x : List (List ℚ)) (y : List ℚ) (depth : ℕ) (s : Option (List Rule)) :
    fit cfg x y depth = fit cfg x y depth ∧
    rulesAfterFit cfg x y depth (rulesAfterFit cfg x y depth s) =
      rulesAfterFit cfg x y depth s := by
  refine ⟨rfl, ?_⟩
  unfold rulesAfterFit
  by_cases hc : y.length = 0 ∨ all_same y = true ∨ cfg.max_depth ≤ depth
  · rw [if_pos hc, if_pos hc]
  · rw [if_neg hc, if_neg hc]
    cases h : fit cfg x y depth <;> simp [h]

/-- C10 (counterexample): a base-case `fit` on a fresh instance leaves
`rules_` unassigned, yet `predict` on a zero-row matrix returns the empty
result without raising, because the source reads `self.rules_` only
inside the per-row loop — refuting the claim that a subsequent
`predict_proba` or `predict` on the fresh instance always raises an
attribute error. -/
theorem stale_rules_predict_empty_counterexample :
    rulesAfterFit giniCfg [[1], [2]] [7, 7] 0 Option.none = Option.none ∧
    predict_proba Option.none ([] : List (List ℚ)) = Except.ok [] ∧
    predict Option.none ([] : List (List ℚ)) = Except.ok [] := by
  refine ⟨by with_unfolding_all rfl, rfl, rfl⟩

/-- C10 (amended): when a top-level `fit` call terminates in one of the
three base cases, `self.rules_` is not assigned even though a node list
is returned: a fresh instance raises `AttributeError` from
`predict_proba` whenever the input matrix has at least one row (a
zero-row input returns the empty result without raising), and a
previously fitted instance keeps predicting from its stale rule list. -/
theorem fit_base_case_keeps_stale_rules (cfg : Config)
    (x X : List (List ℚ)) (y : List ℚ) (depth : ℕ) (old : Option (List Rule))
    (h : y.length = 0 ∨ all_same y = true ∨ cfg.max_depth ≤ depth)
    (hX : X ≠ []) :
    rulesAfterFit cfg x y depth old = old ∧
    (∃ r, fit cfg x y depth = Except.ok r) ∧
    predict_proba (rulesAfterFit cfg x y depth old) X = predict_proba old X ∧
    predict_proba Option.none X = Except.error PyErr.attributeError := by
  have hraf : rulesAfterFit cfg x y depth old = old := by
    unfold rulesAfterFit
    rw [if_pos h]
  refine ⟨hraf, ?_, by rw [hraf], predict_proba_none_of_ne_nil X hX⟩
  unfold fit fitGo
  by_cases h1 : y.length = 0
  · exact ⟨[], by rw [if_pos h1]⟩
  · by_cases h2 : all_same y = true
    · exact ⟨[Rule.leaf (y.headD 0) y.length], by rw [if_neg h1, if_pos h2]⟩
    · have h3 : cfg.max_depth ≤ depth := by
        rcases h with h | h | h
        · exact absurd h h1
        · exact absurd h h2
        · exact h
      exact ⟨[], by rw [if_neg h1, if_neg h2, if_pos h3]⟩

/-- C10 (witness): the amended base-case theorem applied at a pure label
vector on an instance holding a stale rule list, with a one-row
prediction matrix. -/
theorem fit_base_case_keeps_stale_rules_witness :
    rulesAfterFit giniCfg [[1], [2]] [7, 7] 0 (Option.some [Rule.leaf 9 1]) =
      Option.some [Rule.leaf 9 1] ∧
    (∃ r, fit giniCfg [[1], [2]] [7, 7] 0 = Except.ok r) ∧
    predict_proba (rulesAfterFit giniCfg [[1], [2]] [7, 7] 0
        (Option.some [Rule.leaf 9 1])) [[1]] =
      predict_proba (Option.some [Rule.leaf 9 1]) [[1]] ∧
    predict_proba Option.none [[1]] = Except.error PyErr.attributeError :=
  fit_base_case_keeps_stale_rules giniCfg [[1], [2]] [[1]] [7, 7] 0
    (Option.some [Rule.leaf 9 1]) (Or.inr (Or.inl (by decide))) (by decide)

/-- C1 (code bug evidence): fitting the spec's own example
(`y = [0,0,0,1,1,1]`, one feature separating at 4) produces a rule list
whose first node has `val = 1/2` and `val_right = 1`; a row triggering
that mid-sequence split (`5 >= 4`) is assigned probability `1/2`, the
node's `val`, not its `val_right` as the spec (and the model's own string
rendering of the rule) require. -/
theorem predict_assigns_val_not_val_right :
    fit giniCfg [[1], [2], [3], [4], [5], [6]] [0, 0, 0, 1, 1, 1] 0 =
      Except.ok [Rule.split 0 4 (1 / 2) false (some 1) 6 3, Rule.leaf 0 3] ∧
    predict_proba
        (some [Rule.split 0 4 (1 / 2) false (some 1) 6 3, Rule.leaf 0 3]) [[5]] =
      Except.ok [(1 / 2, 1 / 2)] ∧
    (1 / 2 : ℚ) ≠ 1 := by
  refine ⟨by with_unfolding_all rfl, by with_unfolding_all rfl, by norm_num⟩

/-- C4 (counterexample): when a `fit` call with the unknown criterion name
`bogus` terminates in a base case (here: a pure label vector), no error of
any kind is raised, refuting the claim that every `fit` call with an
unknown criterion raises a fatal configuration error before any
computation. -/
theorem fit_unknown_criterion_counterexample :
    fit { giniCfg with criterion := "bogus" } [[0], [0]] [5, 5] 0 =
      Except.ok [Rule.leaf 5 2] := by
  with_unfolding_all rfl

lemma weighted_criterion_unknown_error (cfg : Config) (mask : List Bool)
    (y : List ℚ) (hlen : mask.length = y.length)
    (hg : cfg.criterion ≠ "gini") (he : cfg.criterion ≠ "entropy")
    (hn : cfg.criterion ≠ "neg_corr") :
    weighted_criterion cfg mask y = Except.error PyErr.unboundLocal := by
  unfold weighted_criterion
  rw [if_neg (by simp [hlen]), if_neg hn, if_neg (by simp [hg, he])]

lemma split_on_feature_unknown_error (cfg : Config) (col y : List ℚ)
    (hcol : col ≠ []) (hlen : col.length = y.length)
    (hg : cfg.criterion ≠ "gini") (he : cfg.criterion ≠ "entropy")
    (hn : cfg.criterion ≠ "neg_corr") :
    split_on_feature cfg col y = Except.error PyErr.unboundLocal := by
  obtain ⟨v, vs, hvs⟩ :=
    List.exists_cons_of_ne_nil (mt (List.dedup_eq_nil col).mp hcol)
  unfold split_on_feature pyset
  rw [hvs]
  simp only [sofLoop]
  rw [weighted_criterion_unknown_error cfg _ y (by simpa using hlen) hg he hn]

/-- C4 (amended): an unknown criterion name is not validated up front;
whenever `fit` reaches the recursive branch (non-empty, non-pure labels,
depth below the ceiling, at least one feature column), the unknown name
surfaces as an unbound-local fatal error at the first criterion
evaluation, i.e. during split scoring rather than before any
computation. -/
theorem fit_unknown_criterion_errors_in_scoring (cfg : Config)
    (x : List (List ℚ)) (y : List ℚ) (depth : ℕ)
    (hg : cfg.criterion ≠ "gini") (he : cfg.criterion ≠ "entropy")
    (hn : cfg.criterion ≠ "neg_corr") (hns : all_same y = false)
    (hd : depth < cfg.max_depth) (hrows : x.length = y.length)
    (hcols : nCols x ≠ 0) :
    fit cfg x y depth = Except.error PyErr.unboundLocal := by
  have hy : y ≠ [] := by
    intro h
    rw [h] at hns
    simp [all_same] at hns
  have hylen : y.length ≠ 0 := by
    cases y with
    | nil => exact absurd rfl hy
    | cons _ _ => simp
  have hx : x ≠ [] := by
    intro h
    rw [h] at hrows
    exact hylen hrows.symm
  have hc0 : x.map (fun row => row.getD 0 0) ≠ [] := by
    cases x with
    | nil => exact absurd rfl hx
    | cons _ _ => simp
  obtain ⟨n, hnc⟩ : ∃ n, nCols x = n + 1 := ⟨nCols x - 1, by omega⟩
  have hcolsOf : columnsOf x =
      (x.map (fun row => row.getD 0 0)) ::
        ((List.range n).map Nat.succ).map
          (fun j => x.map (fun row => row.getD j 0)) := by
    unfold columnsOf
    rw [hnc, List.range_succ_eq_map, List.map_cons, List.map_map]
  have hsof : split_on_feature cfg (x.map (fun row => row.getD 0 0)) y =
      Except.error PyErr.unboundLocal :=
    split_on_feature_unknown_error cfg _ y hc0 (by simpa using hrows) hg he hn
  unfold fit fitGo
  rw [if_neg hylen, if_neg (by simp [hns]), if_neg (by omega)]
  unfold find_best_split find_best_split_cols
  rw [hcolsOf]
  simp only [fbsLoop]
  rw [hsof]

/-- C4 (witness): the amended theorem applied at a concrete non-pure
input with the unknown criterion name `bogus`. -/
theorem fit_unknown_criterion_errors_in_scoring_witness :
    fit { giniCfg with criterion := "bogus" } [[1], [2]] [0, 1] 0 =
      Except.error PyErr.unboundLocal :=
  fit_unknown_criterion_errors_in_scoring { giniCfg with criterion := "bogus" }
    [[1], [2]] [0, 1] 0 (by decide) (by decide) (by decide) (by decide)
    (by decide) (by decide) (by decide)

lemma fbsLoop_zero_short_circuit (cfg : Config) (y : List ℚ) (c : List ℚ)
    (cut : ℚ) (hc : split_on_feature cfg c y = Except.ok (0, cut))
    (cs₂ : List (List ℚ)) :
    ∀ (cs₁ : List (List ℚ)) (i : ℕ) (best : Option ℕ × Option ℚ × ℚ),
    (∀ cj ∈ cs₁, ∃ v cu, split_on_feature cfg cj y = Except.ok (v, cu) ∧ v ≠ 0) →
    fbsLoop cfg y i (cs₁ ++ c :: cs₂) best =
      Except.ok (some (i + cs₁.length), some cut, 0) := by
  intro cs₁
  induction cs₁ with
  | nil =>
      intro i best _
      simp only [List.nil_append, fbsLoop]
      rw [hc]
      simp
  | cons cj cs₁ ih =>
      intro i best h
      obtain ⟨v, cu, hsof, hv⟩ := h cj (List.mem_cons_self _ _)
      have hrest : ∀ ck ∈ cs₁, ∃ v cu,
          split_on_feature cfg ck y = Except.ok (v, cu) ∧ v ≠ 0 :=
        fun ck hck => h ck (List.mem_cons_of_mem _ hck)
      simp only [List.cons_append, fbsLoop]
      rw [hsof]
      dsimp only
      rw [if_neg hv]
      have hlen : (i + 1) + cs₁.length = i + (cj :: cs₁).length := by
        simp only [List.length_cons]
        omega
      by_cases hle : v ≤ best.2.2
      · rw [if_pos hle]
        have h1 := ih (i + 1) (some i, some cu, v) hrest
        rw [hlen] at h1
        exact h1
      · rw [if_neg hle]
        have h1 := ih (i + 1) best hrest
        rw [hlen] at h1
        exact h1

/-- C5: during best-split search, as soon as a column attains a criterion
value of exactly `0`, that column's index, its cutoff and the zero value
are returned at once; the result does not depend on the columns to its
right, which are never scanned (the suffix `cs₂` is universally
quantified). -/
theorem find_best_split_zero_short_circuit (cfg : Config) (y : List ℚ)
    (cs₁ : List (List ℚ)) (c : List ℚ) (cut : ℚ)
    (h₁ : ∀ cj ∈ cs₁, ∃ v cu,
      split_on_feature cfg cj y = Except.ok (v, cu) ∧ v ≠ 0)
    (hc : split_on_feature cfg c y = Except.ok (0, cut)) :
    ∀ cs₂ : List (List ℚ), find_best_split_cols cfg (cs₁ ++ c :: cs₂) y =
      Except.ok (some cs₁.length, some cut, 0) := by
  intro cs₂
  have h := fbsLoop_zero_short_circuit cfg y c cut hc cs₂ cs₁ 0
    (Option.none, Option.none, (10 : ℚ) ^ 10) h₁
  simpa [find_best_split_cols] using h

/-- C5 (witness): the short-circuit theorem applied to a matrix whose
second column separates the labels perfectly; the third column is never
scanned. -/
theorem find_best_split_zero_short_circuit_witness :
    find_best_split_cols giniCfg [[1, 2, 3], [0, 1, 0], [9, 9, 9]] [0, 1, 0] =
      Except.ok (some 1, some 1, 0) :=
  find_best_split_zero_short_circuit giniCfg [0, 1, 0] [[1, 2, 3]] [0, 1, 0] 1
    (by
      intro cj hcj
      rw [List.mem_singleton] at hcj
      subst hcj
      exact ⟨1 / 3, 3, by with_unfolding_all rfl, by norm_num⟩)
    (by with_unfolding_all rfl) [[9, 9, 9]]

/-- C3 (counterexample): the two columns of this matrix are identical, so
both attain the minimal criterion value `1/3` (second conjunct), yet
best-split search returns column index `1`, not the lowest tied index
`0`. -/
theorem find_best_split_tie_counterexample :
    find_best_split giniCfg [[1, 1], [2, 2], [3, 3]] [0, 1, 0] =
      Except.ok (some 1, some 3, 1 / 3) ∧
    split_on_feature giniCfg [1, 2, 3] [0, 1, 0] = Except.ok (1 / 3, 3) ∧
    (1 : ℕ) ≠ 0 := by
  refine ⟨by with_unfolding_all rfl, by with_unfolding_all rfl, by decide⟩

lemma fbsLoop_last_min (cfg : Config) (y : List ℚ) (w cut : ℕ → ℚ) :
    ∀ (cols : List (List ℚ)) (i0 j0 : ℕ) (c0 m0 : ℚ),
    (∀ k, k < cols.length →
      split_on_feature cfg (cols.getD k []) y =
        Except.ok (w (i0 + k), cut (i0 + k))) →
    (∀ k, k < cols.length → w (i0 + k) ≠ 0) →
    (fbsLoop cfg y i0 cols (some j0, some c0, m0) =
        Except.ok (some j0, some c0, m0) ∧
      ∀ k, k < cols.length → m0 < w (i0 + k)) ∨
    (∃ k, k < cols.length ∧
      fbsLoop cfg y i0 cols (some j0, some c0, m0) =
        Except.ok (some (i0 + k), some (cut (i0 + k)), w (i0 + k)) ∧
      w (i0 + k) ≤ m0 ∧
      (∀ l, l < cols.length → w (i0 + k) ≤ w (i0 + l)) ∧
      (∀ l, k < l → l < cols.length → w (i0 + k) < w (i0 + l))) := by
  intro cols
  induction cols with
  | nil =>
      intro i0 j0 c0 m0 _ _
      left
      refine ⟨by simp [fbsLoop], ?_⟩
      intro k hk
      exact absurd hk (by simp)
  | cons ch ct ih =>
      intro i0 j0 c0 m0 hw hnz
      have hw0 : split_on_feature cfg ch y = Except.ok (w i0, cut i0) := by
        have h := hw 0 (by simp)
        simpa using h
      have hnz0 : w i0 ≠ 0 := by
        have h := hnz 0 (by simp)
        simpa using h
      have hidx : ∀ k, i0 + (k + 1) = (i0 + 1) + k := fun k => by omega
      have hw1 : ∀ k, k < ct.length →
          split_on_feature cfg (ct.getD k []) y =
            Except.ok (w ((i0 + 1) + k), cut ((i0 + 1) + k)) := by
        intro k hk
        have h := hw (k + 1) (by simp; omega)
        rw [List.getD_cons_succ, hidx k] at h
        exact h
      have hnz1 : ∀ k, k < ct.length → w ((i0 + 1) + k) ≠ 0 := by
        intro k hk
        have h := hnz (k + 1) (by simp; omega)
        rw [hidx k] at h
        exact h
      simp only [fbsLoop]
      rw [hw0]
      dsimp only
      rw [if_neg hnz0]
      by_cases hle : w i0 ≤ m0
      · rw [if_pos hle]
        rcases ih (i0 + 1) i0 (cut i0) (w i0) hw1 hnz1 with
          ⟨heq, hgt⟩ | ⟨k, hk, heq, hle2, hmin, hstrict⟩
        · right
          refine ⟨0, by simp, by simpa using heq, by simpa using hle, ?_, ?_⟩
          · intro l hl
            rcases l with _ | l
            · simp
            · have h := hgt l (by simp at hl; omega)
              rw [hidx l]
              simpa using le_of_lt h
          · intro l hl0 hl
            rcases l with _ | l
            · exact absurd hl0 (by omega)
            · have h := hgt l (by simp at hl; omega)
              rw [hidx l]
              simpa using h
        · right
          refine ⟨k + 1, by simp; omega, ?_, ?_, ?_, ?_⟩
          · rw [hidx k]
            exact heq
          · rw [hidx k]
            exact le_trans hle2 hle
          · intro l hl
            rcases l with _ | l
            · rw [hidx k]
              simpa using hle2
            · rw [hidx k, hidx l]
              exact hmin l (by simp at hl; omega)
          · intro l hl0 hl
            rcases l with _ | l
            · exact absurd hl0 (by omega)
            · rw [hidx k, hidx l]
              exact hstrict l (by omega) (by simp at hl; omega)
      · rw [if_neg hle]
        push_neg at hle
        rcases ih (i0 + 1) j0 c0 m0 hw1 hnz1 with
          ⟨heq, hgt⟩ | ⟨k, hk, heq, hle2, hmin, hstrict⟩
        · left
          refine ⟨heq, ?_⟩
          intro l hl
          rcases l with _ | l
          · simpa using hle
          · have h := hgt l (by simp at hl; omega)
            rw [hidx l]
            exact h
        · right
          refine ⟨k + 1, by simp; omega, ?_, ?_, ?_, ?_⟩
          · rw [hidx k]
            exact heq
          · rw [hidx k]
            exact hle2
          · intro l hl
            rcases l with _ | l
            · rw [hidx k]
              simpa using le_of_lt (lt_of_le_of_lt hle2 hle)
            · rw [hidx k, hidx l]
              exact hmin l (by simp at hl; omega)
          · intro l hl0 hl
            rcases l with _ | l
            · exact absurd hl0 (by omega)
            · rw [hidx k, hidx l]
              exact hstrict l (by omega) (by simp at hl; omega)

/-- C3 (amended): when best-split search runs with no zero-criterion
short-circuit, the returned column index attains the minimal criterion
value over all columns, and every column strictly to its right scores
strictly worse: among tied minimal columns the returned index is the
highest (last non-strict winner, from the `<=` update). -/
theorem find_best_split_tie_highest_index (cfg : Config) (y : List ℚ)
    (cs : List (List ℚ)) (w cut : ℕ → ℚ) (hne : cs ≠ [])
    (hw : ∀ k, k < cs.length →
      split_on_feature cfg (cs.getD k []) y = Except.ok (w k, cut k))
    (hnz : ∀ k, k < cs.length → w k ≠ 0)
    (hbd : ∀ k, k < cs.length → w k ≤ 10 ^ 10) :
    ∃ J, find_best_split_cols cfg cs y =
        Except.ok (some J, some (cut J), w J) ∧
      J < cs.length ∧ (∀ k, k < cs.length → w J ≤ w k) ∧
      (∀ k, J < k → k < cs.length → w J < w k) := by
  obtain ⟨ch, ct, rfl⟩ := List.exists_cons_of_ne_nil hne
  have hw0 : split_on_feature cfg ch y = Except.ok (w 0, cut 0) := by
    have h := hw 0 (by simp)
    simpa using h
  have hw1 : ∀ k, k < ct.length →
      split_on_feature cfg (ct.getD k []) y =
        Except.ok (w (1 + k), cut (1 + k)) := by
    intro k hk
    have h := hw (k + 1) (by simp; omega)
    rw [List.getD_cons_succ] at h
    rw [Nat.add_comm 1 k]
    exact h
  have hnz1 : ∀ k, k < ct.length → w (1 + k) ≠ 0 := by
    intro k hk
    rw [Nat.add_comm 1 k]
    exact hnz (k + 1) (by simp; omega)
  unfold find_best_split_cols
  simp only [fbsLoop]
  rw [hw0]
  dsimp only
  rw [if_neg (hnz 0 (by simp)), if_pos (hbd 0 (by simp))]
  rcases fbsLoop_last_min cfg y w cut ct 1 0 (cut 0) (w 0) hw1 hnz1 with
    ⟨heq, hgt⟩ | ⟨k, hk, heq, hle2, hmin, hstrict⟩
  · refine ⟨0, heq, by simp, ?_, ?_⟩
    · intro l hl
      rcases l with _ | l
      · exact le_refl _
      · have h := hgt l (by simp at hl; omega)
        rw [Nat.add_comm 1 l] at h
        exact le_of_lt h
    · intro l hl0 hl
      rcases l with _ | l
      · exact absurd hl0 (by omega)
      · have h := hgt l (by simp at hl; omega)
        rw [Nat.add_comm 1 l] at h
        exact h
  · refine ⟨1 + k, heq, by simp; omega, ?_, ?_⟩
    · intro l hl
      rcases l with _ | l
      · exact hle2
      · rw [← Nat.add_comm 1 l]
        exact hmin l (by simp at hl; omega)
    · intro l hl0 hl
      rcases l with _ | l
      · exact absurd hl0 (by omega)
      · rw [← Nat.add_comm 1 l]
        exact hstrict l (by omega) (by simp at hl; omega)

/-- C3 (witness): the amended theorem applied to two identical columns;
the returned index is `1`, the highest of the two tied columns. -/
theorem find_best_split_tie_highest_index_witness :
    ∃ J, find_best_split_cols giniCfg [[1, 2, 3], [1, 2, 3]] [0, 1, 0] =
        Except.ok (some J, some 3, 1 / 3) ∧
      J < 2 ∧ (∀ k, k < 2 → (1 / 3 : ℚ) ≤ 1 / 3) ∧
      (∀ k, J < k → k < 2 → (1 / 3 : ℚ) < 1 / 3) :=
  find_best_split_tie_highest_index giniCfg [0, 1, 0] [[1, 2, 3], [1, 2, 3]]
    (fun _ => 1 / 3) (fun _ => 3) (by simp)
    (by
      intro k hk
      rcases k with _ | _ | k
      · with_unfolding_all rfl
      · with_unfolding_all rfl
      · exact absurd hk (by simp only [List.length_cons, List.length_nil]; omega))
    (fun k _ => by norm_num)
    (fun k _ => by norm_num)

/-! Helper lemmas for the split-node invariant (C6). -/

lemma maskSel_nil_left (y : List α) : maskSel [] y = [] := rfl

lemma maskSel_nil_right (m : List Bool) : maskSel m ([] : List α) = [] := by
  unfold maskSel
  rw [List.zip_nil_right]
  rfl

lemma maskSel_cons (b : Bool) (m : List Bool) (a : α) (y : List α) :
    maskSel (b :: m) (a :: y) =
      if b then a :: maskSel m y else maskSel m y := by
  cases b <;> simp [maskSel]

lemma map_not_lt_mask (colVals : List ℚ) (cut : ℚ) :
    (colVals.map (fun t => decide (t < cut))).map not =
      colVals.map (fun t => decide (t ≥ cut)) := by
  rw [List.map_map]
  apply List.map_congr_left
  intro t _
  simp only [Function.comp_apply, ← decide_not]
  apply decide_eq_decide.mpr
  exact not_lt

lemma maskSel_append_not_perm :
    ∀ (m : List Bool) (y : List α), m.length = y.length →
    (maskSel m y ++ maskSel (m.map not) y).Perm y := by
  intro m
  induction m with
  | nil =>
      intro y hy
      cases y with
      | nil => simp [maskSel]
      | cons a t => simp at hy
  | cons b m ih =>
      intro y hy
      cases y with
      | nil => simp at hy
      | cons a t =>
          have ht : m.length = t.length := by simpa using hy
          cases b with
          | true =>
              simp only [List.map_cons, Bool.not_true, maskSel_cons, if_true,
                if_false, List.cons_append]
              exact (ih t ht).cons a
          | false =>
              simp only [List.map_cons, Bool.not_false, maskSel_cons, if_true,
                if_false]
              exact List.perm_middle.trans ((ih t ht).cons a)

lemma maskSel_map_length_eq_filter :
    ∀ (x : List α) (y : List β) (f : α → Bool), x.length = y.length →
    (maskSel (x.map f) y).length = (x.filter f).length := by
  intro x
  induction x with
  | nil =>
      intro y f hy
      simp [maskSel]
  | cons a t ih =>
      intro y f hy
      cases y with
      | nil => simp at hy
      | cons b u =>
          have hu : t.length = u.length := by simpa using hy
          rw [List.map_cons, maskSel_cons, List.filter_cons]
          cases hfa : f a <;> simp [ih u f hu]

lemma maskSel_not_of_eq_nil :
    ∀ (m : List Bool) (y : List α), m.length = y.length →
    maskSel m y = [] → maskSel (m.map not) y = y := by
  intro m
  induction m with
  | nil =>
      intro y hy _
      cases y with
      | nil => rfl
      | cons a t => simp at hy
  | cons b m ih =>
      intro y hy hnil
      cases y with
      | nil => simp at hy
      | cons a t =>
          have ht : m.length = t.length := by simpa using hy
          cases b with
          | true => simp [maskSel_cons] at hnil
          | false =>
              rw [maskSel_cons, if_neg (by simp)] at hnil
              rw [List.map_cons, Bool.not_false, maskSel_cons, if_pos rfl,
                ih t ht hnil]

lemma maskSel_ne_nil_of_mem_true :
    ∀ (m : List Bool) (y : List α), m.length = y.length → true ∈ m →
    maskSel m y ≠ [] := by
  intro m
  induction m with
  | nil =>
      intro y _ hmem
      cases hmem
  | cons b m ih =>
      intro y hy hmem
      cases y with
      | nil => simp at hy
      | cons a t =>
          have ht : m.length = t.length := by simpa using hy
          cases b with
          | true => simp [maskSel_cons]
          | false =>
              rw [maskSel_cons, if_neg (by simp)]
              have : true ∈ m := by simpa using hmem
              exact ih t ht this

lemma foldl_add_map (l : List α) (f : α → ℚ) :
    ∀ init : ℚ, l.foldl (fun s c => s + f c) init = init + (l.map f).sum := by
  induction l with
  | nil => intro init; simp
  | cons a t ih =>
      intro init
      rw [List.foldl_cons, ih, List.map_cons, List.sum_cons]
      ring

lemma sum_map_div (l : List α) (f : α → ℚ) (d : ℚ) :
    (l.map (fun c => f c / d)).sum = (l.map f).sum / d := by
  induction l with
  | nil => simp
  | cons a t ih => simp [ih, add_div]

lemma sum_ones (y : List α) : (y.map (fun _ => (1 : ℚ))).sum = (y.length : ℚ) := by
  induction y with
  | nil => simp
  | cons a t ih =>
      simp [ih]
      ring

lemma gini_nonneg (y : List ℚ) (c : ℚ) :
    0 ≤ ((y.count c : ℕ) : ℚ) / ((y.length : ℕ) : ℚ) :=
  div_nonneg (Nat.cast_nonneg _) (Nat.cast_nonneg _)

lemma gini_le_one (y : List ℚ) : gini_criterion y ≤ 1 := by
  unfold gini_criterion
  rw [foldl_add_map, zero_add]
  by_cases hy : y = []
  · subst hy
    simp [pyset]
  · have hn : (0 : ℚ) < (y.length : ℚ) := by
      have h := List.length_pos.mpr hy
      exact_mod_cast h
    have hterm : ∀ c ∈ pyset y,
          ((y.count c : ℕ) : ℚ) / ((y.length : ℕ) : ℚ) *
              (1 - ((y.count c : ℕ) : ℚ) / ((y.length : ℕ) : ℚ)) ≤
            ((y.count c : ℕ) : ℚ) / ((y.length : ℕ) : ℚ) := by
        intro c _
        have h0 := gini_nonneg y c
        nlinarith [gini_nonneg y c]
    calc ((pyset y).map fun c =>
            ((y.count c : ℕ) : ℚ) / ((y.length : ℕ) : ℚ) *
              (1 - ((y.count c : ℕ) : ℚ) / ((y.length : ℕ) : ℚ))).sum
        ≤ ((pyset y).map fun c =>
            ((y.count c : ℕ) : ℚ) / ((y.length : ℕ) : ℚ)).sum := by
          apply List.sum_le_sum
          intro c hc
          exact hterm c hc
      _ = 1 := by
          rw [sum_map_div]
          have hcast : ((pyset y).map fun c => ((y.count c : ℕ) : ℚ)).sum =
              ((y.length : ℕ) : ℚ) := by
            have h1 : ((pyset y).map fun c => ((y.count c : ℕ) : ℚ)) =
                ((pyset y).map fun c => y.count c).map (fun n : ℕ => (n : ℚ)) := by
              rw [List.map_map]
              rfl
            rw [h1, ← Nat.cast_list_sum]
            unfold pyset
            rw [List.sum_map_count_dedup_eq_length]
          rw [hcast]
          exact div_self (ne_of_gt hn)

lemma maskSel_ones_sum :
    ∀ (m : List Bool) (y : List α), m.length = y.length →
    (maskSel m (y.map (fun _ => (1 : ℚ)))).sum = ((m.countP id : ℕ) : ℚ) := by
  intro m
  induction m with
  | nil =>
      intro y _
      simp [maskSel]
  | cons b mt ih =>
      intro y hy
      cases y with
      | nil => simp at hy
      | cons a t =>
          have ht : mt.length = t.length := by simpa using hy
          rw [List.map_cons, maskSel_cons, List.countP_cons]
          cases b with
          | true =>
              rw [if_pos rfl]
              simp only [List.sum_cons, ih t ht, id, if_pos rfl]
              push_cast
              ring
          | false =>
              rw [if_neg (by simp)]
              simp only [ih t ht, id]
              norm_num

lemma countP_map_not_id (m : List Bool) : (m.map not).countP id = m.countP not := by
  rw [List.countP_map]
  rfl

lemma countP_id_add_not (m : List Bool) :
    m.countP id + m.countP not = m.length := by
  induction m with
  | nil => rfl
  | cons b mt ih => cases b <;> simp [List.countP_cons, id] <;> omega

lemma weighted_criterion_gini (cfg : Config) (hcrit : cfg.criterion = "gini")
    (hcw : cfg.class_weight = Option.none) (m : List Bool) (y : List ℚ)
    (hm : m.length = y.length) (hy : y ≠ []) :
    ∃ q, weighted_criterion cfg m y = Except.ok (PyVal.num q) ∧ q ≤ 1 := by
  have hn : (0 : ℚ) < (y.length : ℚ) := by
    have h := List.length_pos.mpr hy
    exact_mod_cast h
  have hones : sampleWeights cfg.class_weight y = y.map (fun _ => (1 : ℚ)) := by
    rw [hcw]
    rfl
  unfold weighted_criterion
  rw [if_neg (by simp [hm]), if_neg (by rw [hcrit]; decide),
    if_pos (Or.inr hcrit : cfg.criterion = "entropy" ∨ cfg.criterion = "gini"),
    if_neg (by rw [hcrit]; decide), hones]
  refine ⟨_, rfl, ?_⟩
  rw [sum_ones, maskSel_ones_sum m y hm,
    maskSel_ones_sum (m.map not) y (by simpa using hm), countP_map_not_id]
  have h1 : gini_criterion (maskSel m y) ≤ 1 := gini_le_one _
  have h2 : gini_criterion (maskSel (m.map not) y) ≤ 1 := gini_le_one _
  have hwl : 0 ≤ ((m.countP id : ℕ) : ℚ) / ((y.length : ℕ) : ℚ) :=
    div_nonneg (Nat.cast_nonneg _) (le_of_lt hn)
  have hwr : 0 ≤ ((m.countP not : ℕ) : ℚ) / ((y.length : ℕ) : ℚ) :=
    div_nonneg (Nat.cast_nonneg _) (le_of_lt hn)
  have hsum : ((m.countP id : ℕ) : ℚ) / ((y.length : ℕ) : ℚ) +
      ((m.countP not : ℕ) : ℚ) / ((y.length : ℕ) : ℚ) = 1 := by
    rw [div_add_div_same, ← Nat.cast_add, countP_id_add_not m, hm]
    exact div_self (ne_of_gt hn)
  calc ((m.countP id : ℕ) : ℚ) / ((y.length : ℕ) : ℚ) *
          gini_criterion (maskSel m y) +
        ((m.countP not : ℕ) : ℚ) / ((y.length : ℕ) : ℚ) *
          gini_criterion (maskSel (m.map not) y)
      ≤ ((m.countP id : ℕ) : ℚ) / ((y.length : ℕ) : ℚ) * 1 +
        ((m.countP not : ℕ) : ℚ) / ((y.length : ℕ) : ℚ) * 1 := by
        have hl := mul_le_mul_of_nonneg_left h1 hwl
        have hr := mul_le_mul_of_nonneg_left h2 hwr
        linarith
    _ = 1 := by
        rw [mul_one, mul_one]
        exact hsum

lemma split_on_feature_gini (cfg : Config) (hcrit : cfg.criterion = "gini")
    (hcw : cfg.class_weight = Option.none) (col y : List ℚ)
    (hcol : col ≠ []) (hlen : col.length = y.length) (hy : y ≠ []) :
    ∃ mval cu, split_on_feature cfg col y = Except.ok (mval, cu) ∧ cu ∈ col := by
  have inv : ∀ (vs : List ℚ), (∀ u ∈ vs, u ∈ col) → ∀ (acc : ℚ × ℚ),
      acc.2 ∈ col →
      ∃ mval cu, sofLoop cfg col y vs acc = Except.ok (mval, cu) ∧ cu ∈ col := by
    intro vs
    induction vs with
    | nil =>
        intro _ acc hacc
        exact ⟨acc.1, acc.2, by simp [sofLoop], hacc⟩
    | cons v vt ih =>
        intro hsub acc hacc
        obtain ⟨q, hwc, _⟩ := weighted_criterion_gini cfg hcrit hcw
          (col.map (fun t => decide (t < v))) y (by simpa using hlen) hy
        have hsub' : ∀ u ∈ vt, u ∈ col :=
          fun u hu => hsub u (List.mem_cons_of_mem _ hu)
        simp only [sofLoop]
        rw [hwc]
        dsimp only
        by_cases hle : q ≤ acc.1
        · rw [if_pos hle]
          exact ih hsub' (q, v) (hsub v (List.mem_cons_self _ _))
        · rw [if_neg hle]
          exact ih hsub' acc hacc
  obtain ⟨v0, rest, hps⟩ :=
    List.exists_cons_of_ne_nil (mt (List.dedup_eq_nil col).mp hcol)
  obtain ⟨q0, hwc0, hq0⟩ := weighted_criterion_gini cfg hcrit hcw
    (col.map (fun t => decide (t < v0))) y (by simpa using hlen) hy
  have hv0 : v0 ∈ col := by
    have h : v0 ∈ col.dedup := by
      rw [hps]
      exact List.mem_cons_self _ _
    exact List.mem_dedup.mp h
  unfold split_on_feature pyset
  rw [hps]
  simp only [sofLoop]
  rw [hwc0]
  dsimp only
  rw [if_pos (le_trans hq0 (by norm_num))]
  refine inv rest ?_ (q0, v0) hv0
  intro u hu
  have h : u ∈ col.dedup := by
    rw [hps]
    exact List.mem_cons_of_mem _ hu
  exact List.mem_dedup.mp h

lemma fbsLoop_some_mem (cfg : Config) (y : List ℚ) (P : ℕ → ℚ → Prop) :
    ∀ (cols : List (List ℚ)) (i0 : ℕ) (best : Option ℕ × Option ℚ × ℚ),
    (∀ j c m, best = (some j, some c, m) → P j c) →
    (∀ k, k < cols.length → ∀ m cu,
      split_on_feature cfg (cols.getD k []) y = Except.ok (m, cu) →
      P (i0 + k) cu) →
    ∀ i c m, fbsLoop cfg y i0 cols best = Except.ok (some i, some c, m) →
    P i c := by
  intro cols
  induction cols with
  | nil =>
      intro i0 best hb _ i c m hloop
      simp only [fbsLoop] at hloop
      injection hloop with h
      exact hb i c m h
  | cons ch ct ih =>
      intro i0 best hb hcols i c m hloop
      have hP0 : ∀ m cu, split_on_feature cfg ch y = Except.ok (m, cu) →
          P i0 cu := by
        intro m cu hsof
        have h := hcols 0 (by simp) m cu (by simpa using hsof)
        simpa using h
      have hcols' : ∀ k, k < ct.length → ∀ m cu,
          split_on_feature cfg (ct.getD k []) y = Except.ok (m, cu) →
          P ((i0 + 1) + k) cu := by
        intro k hk m cu hsof
        have h := hcols (k + 1) (by simp; omega) m cu
          (by rwa [List.getD_cons_succ])
        have hidx : i0 + (k + 1) = (i0 + 1) + k := by omega
        rwa [hidx] at h
      simp only [fbsLoop] at hloop
      cases hsof : split_on_feature cfg ch y with
      | error e =>
          rw [hsof] at hloop
          cases hloop
      | ok vc =>
          obtain ⟨v, cu⟩ := vc
          rw [hsof] at hloop
          dsimp only at hloop
          by_cases hz : v = 0
          · rw [if_pos hz] at hloop
            injection hloop with h
            have hi : i0 = i := Option.some.inj (congrArg Prod.fst h)
            have hc : cu = c := Option.some.inj (congrArg (fun p => p.2.1) h)
            rw [← hi, ← hc]
            exact hP0 v cu hsof
          · rw [if_neg hz] at hloop
            by_cases hle : v ≤ best.2.2
            · rw [if_pos hle] at hloop
              refine ih (i0 + 1) (some i0, some cu, v) ?_ hcols' i c m hloop
              intro j c' m' hh
              have hj : some i0 = some j := congrArg Prod.fst hh
              have hc2 : some cu = some c' := congrArg (fun p => p.2.1) hh
              rw [← Option.some.inj hj, ← Option.some.inj hc2]
              exact hP0 v cu hsof
            · rw [if_neg hle] at hloop
              exact ih (i0 + 1) best hb hcols' i c m hloop

lemma columnsOf_length (x : List (List ℚ)) : (columnsOf x).length = nCols x := by
  simp [columnsOf]

lemma columnsOf_getD (x : List (List ℚ)) (k : ℕ) (hk : k < nCols x) :
    (columnsOf x).getD k [] = x.map (fun row => row.getD k 0) := by
  unfold columnsOf
  rw [List.getD_eq_getElem?_getD, List.getElem?_map, List.getElem?_range hk]
  rfl

lemma npMean_eq_some {l : List ℚ} (h : l ≠ []) :
    npMean l = some (l.sum / ((l.length : ℕ) : ℚ)) := by
  unfold npMean
  rw [if_neg (by simpa using (List.length_pos.mpr h).ne.symm)]

lemma npMean_nil_eq_none : npMean ([] : List ℚ) = none := rfl

lemma npMean_ne_none {l : List ℚ} (h : l ≠ []) : npMean l ≠ none := by
  rw [npMean_eq_some h]
  simp

lemma sum_of_npMean {l : List ℚ} {a : ℚ} (h : l ≠ [])
    (ha : npMean l = some a) : l.sum = a * ((l.length : ℕ) : ℚ) := by
  rw [npMean_eq_some h] at ha
  have ha' : l.sum / ((l.length : ℕ) : ℚ) = a := Option.some.inj ha
  have hn : ((l.length : ℕ) : ℚ) ≠ 0 := by
    have hp := List.length_pos.mpr h
    exact_mod_cast hp.ne.symm
  rw [← ha']
  field_simp

lemma mean_concat_le (l r : List ℚ) (hl : l ≠ []) (hr : r ≠ []) (c : ℚ)
    (h1 : l.sum ≤ c * ((l.length : ℕ) : ℚ))
    (h2 : r.sum ≤ c * ((r.length : ℕ) : ℚ)) :
    (l.sum + r.sum) / (((l.length : ℕ) : ℚ) + ((r.length : ℕ) : ℚ)) ≤ c := by
  have hlp : (0 : ℚ) < ((l.length : ℕ) : ℚ) := by
    exact_mod_cast List.length_pos.mpr hl
  have hrp : (0 : ℚ) < ((r.length : ℕ) : ℚ) := by
    exact_mod_cast List.length_pos.mpr hr
  rw [div_le_iff₀ (by linarith)]
  nlinarith

/-- The left partition `y[x[:, col] < cutoff]` of `fit`'s recursive
branch. -/
def leftPart (x : List (List ℚ)) (y : List ℚ) (col : ℕ) (cutoff : ℚ) :
    List ℚ :=
  maskSel ((x.map (fun row => row.getD col 0)).map
    (fun t => decide (t < cutoff))) y

/-- The right partition `y[x[:, col] >= cutoff]` of `fit`'s recursive
branch. -/
def rightPart (x : List (List ℚ)) (y : List ℚ) (col : ℕ) (cutoff : ℚ) :
    List ℚ :=
  maskSel ((x.map (fun row => row.getD col 0)).map
    (fun t => decide (t ≥ cutoff))) y

/-- The `flip` flag of `fit`'s recursive branch:
`np.mean(y_left) > np.mean(y_right)` with `nan` comparing false. -/
def flipOf (x : List (List ℚ)) (y : List ℚ) (col : ℕ) (cutoff : ℚ) : Bool :=
  match npMean (leftPart x y col cutoff), npMean (rightPart x y col cutoff) with
  | some a, some b => decide (b < a)
  | _, _ => false

/-- The recorded `val` field: `np.mean(y)`. -/
def valOf (y : List ℚ) : ℚ := y.sum / ((y.length : ℕ) : ℚ)

/-- The split node emitted by `fit`'s recursive branch. -/
def nodeOf (x : List (List ℚ)) (y : List ℚ) (col : ℕ) (cutoff : ℚ) : Rule :=
  Rule.split col cutoff (valOf y) (flipOf x y col cutoff)
    (npMean (if flipOf x y col cutoff then leftPart x y col cutoff
      else rightPart x y col cutoff))
    y.length
    (if flipOf x y col cutoff then leftPart x y col cutoff
      else rightPart x y col cutoff).length

/-- The feature rows passed to the recursive call. -/
def xLeftOf (x : List (List ℚ)) (y : List ℚ) (col : ℕ) (cutoff : ℚ) :
    List (List ℚ) :=
  if flipOf x y col cutoff then
    x.filter (fun row => decide (row.getD col 0 ≥ cutoff))
  else x.filter (fun row => decide (row.getD col 0 < cutoff))

/-- The labels passed to the recursive call. -/
def yLeftOf (x : List (List ℚ)) (y : List ℚ) (col : ℕ) (cutoff : ℚ) :
    List ℚ :=
  if flipOf x y col cutoff then rightPart x y col cutoff
  else leftPart x y col cutoff

/-- The flip part of the C6 invariant, following the recursion: at each
split node, `flip` is set exactly when both partition means (taken over
the partition current at that node) exist and the left one exceeds the
right one; the partition is then narrowed for the remaining nodes exactly
as `fit` narrows it. -/
def FlipInvariant : List (List ℚ) → List ℚ → List Rule → Prop
  | _, _, [] => True
  | x, y, Rule.split i cut _ fl _ _ _ :: rest =>
      (fl = true ↔ ∃ a b, npMean (leftPart x y i cut) = some a ∧
        npMean (rightPart x y i cut) = some b ∧ b < a) ∧
      FlipInvariant (xLeftOf x y i cut) (yLeftOf x y i cut) rest
  | _, _, Rule.leaf _ _ :: _ => True

/-- The C6 invariant over a fitted rule list: every split node satisfies
`val_right >= val` (in particular `val_right` is a number, not `nan`),
and along the recursion every split node's `flip` flag is set exactly
when both partition means exist and the left one exceeds the right
one. -/
def SplitInvariant (x : List (List ℚ)) (y : List ℚ) (rules : List Rule) : Prop :=
  (∀ r ∈ rules, ∀ i cut v fl vr n nr, r = Rule.split i cut v fl vr n nr →
    ∃ q, vr = some q ∧ v ≤ q) ∧
  FlipInvariant x y rules

lemma splitInvariant_nil (x : List (List ℚ)) (y : List ℚ) :
    SplitInvariant x y [] := by
  constructor
  · intro r hr
    cases hr
  · trivial

lemma splitInvariant_leaf (x : List (List ℚ)) (y : List ℚ) (v : ℚ) (n : ℕ) :
    SplitInvariant x y [Rule.leaf v n] := by
  constructor
  · intro r hr i cut vv fl vr nn nr hre
    rw [List.mem_singleton] at hr
    subst hr
    exact absurd hre (by simp)
  · trivial

lemma fitGo_succ_eq (cfg : Config) (fuel : ℕ) (x : List (List ℚ))
    (y : List ℚ) (depth : ℕ) (col : ℕ) (cutoff mval : ℚ)
    (h1 : ¬ y.length = 0) (h2 : ¬ all_same y = true)
    (h3 : ¬ cfg.max_depth ≤ depth)
    (hfb : find_best_split cfg x y = Except.ok (some col, some cutoff, mval)) :
    fitGo cfg (fuel + 1) x y depth =
      match fitGo cfg fuel (xLeftOf x y col cutoff) (yLeftOf x y col cutoff)
          (depth + 1) with
      | Except.error e => Except.error e
      | Except.ok rest => Except.ok (nodeOf x y col cutoff :: rest) := by
  conv_lhs => unfold fitGo
  rw [if_neg h1, if_neg h2, if_neg h3, hfb]
  rfl

lemma flipOf_iff (x : List (List ℚ)) (y : List ℚ) (col : ℕ) (cutoff : ℚ) :
    flipOf x y col cutoff = true ↔ ∃ a b,
      npMean (leftPart x y col cutoff) = some a ∧
      npMean (rightPart x y col cutoff) = some b ∧ b < a := by
  unfold flipOf
  cases hL : npMean (leftPart x y col cutoff) with
  | none =>
      constructor
      · intro h
        exact Bool.noConfusion h
      · rintro ⟨a, b, h1, _, _⟩
        cases h1
  | some a =>
      cases hR : npMean (rightPart x y col cutoff) with
      | none =>
          constructor
          · intro h
            exact Bool.noConfusion h
          · rintro ⟨a', b', _, h2, _⟩
            cases h2
      | some b =>
          constructor
          · intro h
            exact ⟨a, b, rfl, rfl, of_decide_eq_true h⟩
          · rintro ⟨a', b', h1, h2, h3⟩
            have ha : a = a' := Option.some.inj h1
            have hb2 : b = b' := Option.some.inj h2
            apply decide_eq_true
            rw [ha, hb2]
            exact h3

lemma yLeftOf_length (x : List (List ℚ)) (y : List ℚ) (col : ℕ) (cutoff : ℚ)
    (hlen : x.length = y.length) :
    (xLeftOf x y col cutoff).length = (yLeftOf x y col cutoff).length := by
  unfold xLeftOf yLeftOf leftPart rightPart
  cases flipOf x y col cutoff with
  | true =>
      rw [if_pos rfl, if_pos rfl, List.map_map]
      exact (maskSel_map_length_eq_filter x y _ hlen).symm
  | false =>
      rw [if_neg (by simp), if_neg (by simp), List.map_map]
      exact (maskSel_map_length_eq_filter x y _ hlen).symm

lemma nodeOf_val_le (x : List (List ℚ)) (y : List ℚ) (col : ℕ) (cutoff : ℚ)
    (hlen : x.length = y.length) (hy : y ≠ [])
    (hcut : cutoff ∈ x.map (fun row => row.getD col 0)) :
    ∃ q, npMean (if flipOf x y col cutoff then leftPart x y col cutoff
        else rightPart x y col cutoff) = some q ∧ valOf y ≤ q := by
  have hmlt_len : ((x.map (fun row => row.getD col 0)).map
      (fun t => decide (t < cutoff))).length = y.length := by
    rw [List.length_map, List.length_map]
    exact hlen
  have hmge_len : ((x.map (fun row => row.getD col 0)).map
      (fun t => decide (t ≥ cutoff))).length = y.length := by
    rw [List.length_map, List.length_map]
    exact hlen
  have hRne : rightPart x y col cutoff ≠ [] := by
    unfold rightPart
    apply maskSel_ne_nil_of_mem_true _ y hmge_len
    exact List.mem_map.mpr ⟨cutoff, hcut, by simp⟩
  have hperm : (leftPart x y col cutoff ++ rightPart x y col cutoff).Perm y := by
    unfold leftPart rightPart
    rw [← map_not_lt_mask]
    exact maskSel_append_not_perm _ y hmlt_len
  have hsum : (leftPart x y col cutoff).sum + (rightPart x y col cutoff).sum =
      y.sum := by
    have h := hperm.sum_eq
    simpa using h
  have hlen2 : (leftPart x y col cutoff).length +
      (rightPart x y col cutoff).length = y.length := by
    have h := hperm.length_eq
    simpa using h
  obtain ⟨b, hb⟩ : ∃ b, npMean (rightPart x y col cutoff) = some b :=
    ⟨_, npMean_eq_some hRne⟩
  unfold flipOf
  cases hLm : npMean (leftPart x y col cutoff) with
  | none =>
      have hLnil : leftPart x y col cutoff = [] := by
        by_contra hne
        exact (npMean_ne_none hne) hLm
      rw [hb]
      dsimp only
      rw [if_neg (by simp)]
      have hRy : rightPart x y col cutoff = y := by
        unfold rightPart
        rw [← map_not_lt_mask]
        apply maskSel_not_of_eq_nil _ y hmlt_len
        unfold leftPart at hLnil
        exact hLnil
      refine ⟨valOf y, ?_, le_refl _⟩
      rw [hRy]
      unfold valOf
      exact npMean_eq_some hy
  | some a =>
      have hLne : leftPart x y col cutoff ≠ [] := by
        intro h
        rw [h] at hLm
        cases hLm
      have hsumL : (leftPart x y col cutoff).sum =
          a * (((leftPart x y col cutoff).length : ℕ) : ℚ) :=
        sum_of_npMean hLne hLm
      have hsumR : (rightPart x y col cutoff).sum =
          b * (((rightPart x y col cutoff).length : ℕ) : ℚ) :=
        sum_of_npMean hRne hb
      have hval : valOf y = ((leftPart x y col cutoff).sum +
          (rightPart x y col cutoff).sum) /
          ((((leftPart x y col cutoff).length : ℕ) : ℚ) +
            (((rightPart x y col cutoff).length : ℕ) : ℚ)) := by
        unfold valOf
        rw [← hsum, ← hlen2]
        push_cast
        ring
      rw [hb]
      dsimp only
      by_cases hba : b < a
      · rw [if_pos (by simp [hba])]
        refine ⟨a, hLm, ?_⟩
        rw [hval]
        apply mean_concat_le _ _ hLne hRne a (le_of_eq hsumL)
        rw [hsumR]
        apply mul_le_mul_of_nonneg_right (le_of_lt hba) (Nat.cast_nonneg _)
      · rw [if_neg (by simp [hba])]
        refine ⟨b, hb, ?_⟩
        rw [hval]
        apply mean_concat_le _ _ hLne hRne b ?_ (le_of_eq hsumR)
        rw [hsumL]
        apply mul_le_mul_of_nonneg_right (not_lt.mp hba) (Nat.cast_nonneg _)

lemma fitGo_split_invariant (cfg : Config) (hcrit : cfg.criterion = "gini")
    (hcw : cfg.class_weight = Option.none) :
    ∀ (fuel : ℕ) (x : List (List ℚ)) (y : List ℚ) (depth : ℕ)
      (rules : List Rule), x.length = y.length →
    fitGo cfg fuel x y depth = Except.ok rules →
    SplitInvariant x y rules := by
  intro fuel
  induction fuel with
  | zero =>
      intro x y depth rules hlen hfit
      unfold fitGo at hfit
      by_cases h1 : y.length = 0
      · rw [if_pos h1] at hfit
        injection hfit with h
        rw [← h]
        exact splitInvariant_nil x y
      · rw [if_neg h1] at hfit
        by_cases h2 : all_same y = true
        · rw [if_pos h2] at hfit
          injection hfit with h
          rw [← h]
          exact splitInvariant_leaf x y _ _
        · rw [if_neg h2] at hfit
          by_cases h3 : cfg.max_depth ≤ depth
          · rw [if_pos h3] at hfit
            injection hfit with h
            rw [← h]
            exact splitInvariant_nil x y
          · rw [if_neg h3] at hfit
            cases hfb : find_best_split cfg x y with
            | error e =>
                rw [hfb] at hfit
                cases hfit
            | ok triple =>
                obtain ⟨colO, cutO, mval⟩ := triple
                cases colO with
                | none =>
                    rw [hfb] at hfit
                    cases hfit
                | some col =>
                    cases cutO with
                    | none =>
                        rw [hfb] at hfit
                        cases hfit
                    | some cutoff =>
                        rw [hfb] at hfit
                        dsimp only at hfit
                        injection hfit with h
                        rw [← h]
                        exact splitInvariant_nil x y
  | succ fuel ih =>
      intro x y depth rules hlen hfit
      by_cases h1 : y.length = 0
      · unfold fitGo at hfit
        rw [if_pos h1] at hfit
        injection hfit with h
        rw [← h]
        exact splitInvariant_nil x y
      · by_cases h2 : all_same y = true
        · unfold fitGo at hfit
          rw [if_neg h1, if_pos h2] at hfit
          injection hfit with h
          rw [← h]
          exact splitInvariant_leaf x y _ _
        · by_cases h3 : cfg.max_depth ≤ depth
          · unfold fitGo at hfit
            rw [if_neg h1, if_neg h2, if_pos h3] at hfit
            injection hfit with h
            rw [← h]
            exact splitInvariant_nil x y
          · have hy : y ≠ [] := by
              intro h
              exact h1 (by rw [h]; rfl)
            have hx : x ≠ [] := by
              intro h
              rw [h] at hlen
              exact h1 hlen.symm
            cases hfb : find_best_split cfg x y with
            | error e =>
                unfold fitGo at hfit
                rw [if_neg h1, if_neg h2, if_neg h3, hfb] at hfit
                cases hfit
            | ok triple =>
                obtain ⟨colO, cutO, mval⟩ := triple
                cases colO with
                | none =>
                    unfold fitGo at hfit
                    rw [if_neg h1, if_neg h2, if_neg h3, hfb] at hfit
                    cases hfit
                | some col =>
                    cases cutO with
                    | none =>
                        unfold fitGo at hfit
                        rw [if_neg h1, if_neg h2, if_neg h3, hfb] at hfit
                        cases hfit
                    | some cutoff =>
                        rw [fitGo_succ_eq cfg fuel x y depth col cutoff mval
                          h1 h2 h3 hfb] at hfit
                        have hcut : cutoff ∈ x.map (fun row => row.getD col 0) := by
                          have hfb2 : fbsLoop cfg y 0 (columnsOf x)
                              (Option.none, Option.none, (10 : ℚ) ^ 10) =
                              Except.ok (some col, some cutoff, mval) := by
                            have h := hfb
                            unfold find_best_split find_best_split_cols at h
                            exact h
                          refine fbsLoop_some_mem cfg y
                            (fun k c => c ∈ x.map (fun row => row.getD k 0))
                            (columnsOf x) 0 _ ?_ ?_ col cutoff mval hfb2
                          · intro j c m h
                            exact absurd (congrArg Prod.fst h) (by simp)
                          · intro k hk m cu hsof
                            rw [Nat.zero_add]
                            have hk' : k < nCols x := by
                              rwa [columnsOf_length] at hk
                            rw [columnsOf_getD x k hk'] at hsof
                            have hcne : x.map (fun row => row.getD k 0) ≠ [] := by
                              cases x with
                              | nil => exact absurd rfl hx
                              | cons _ _ => simp
                            have hclen : (x.map (fun row => row.getD k 0)).length =
                                y.length := by
                              rw [List.length_map]
                              exact hlen
                            obtain ⟨mv', cu', hs', hmem⟩ :=
                              split_on_feature_gini cfg hcrit hcw _ y hcne hclen hy
                            rw [hs'] at hsof
                            injection hsof with hpair
                            have hcu : cu' = cu := congrArg Prod.snd hpair
                            rw [← hcu]
                            exact hmem
                        cases hrec : fitGo cfg fuel (xLeftOf x y col cutoff)
                            (yLeftOf x y col cutoff) (depth + 1) with
                        | error e =>
                            rw [hrec] at hfit
                            cases hfit
                        | ok rest =>
                            rw [hrec] at hfit
                            injection hfit with h
                            rw [← h]
                            have hnode := nodeOf_val_le x y col cutoff hlen hy hcut
                            have hlen2 := yLeftOf_length x y col cutoff hlen
                            have hrestInv := ih (xLeftOf x y col cutoff)
                              (yLeftOf x y col cutoff) (depth + 1) rest hlen2 hrec
                            constructor
                            · intro r hr i cut v fl vr n nr hre
                              rw [List.mem_cons] at hr
                              rcases hr with hr | hr
                              · have hh : Rule.split i cut v fl vr n nr =
                                    nodeOf x y col cutoff := hre.symm.trans hr
                                unfold nodeOf at hh
                                injection hh with hi hcut2 hv hfl hvr hn hnr
                                obtain ⟨q, hq1, hq2⟩ := hnode
                                refine ⟨q, ?_, ?_⟩
                                · rw [hvr]
                                  exact hq1
                                · rw [hv]
                                  exact hq2
                              · exact hrestInv.1 r hr i cut v fl vr n nr hre
                            · show FlipInvariant x y (nodeOf x y col cutoff :: rest)
                              unfold nodeOf
                              exact ⟨flipOf_iff x y col cutoff, hrestInv.2⟩

/-- Configuration with the `neg_corr` criterion for the C6
counterexample.  The abstract correlation helper `cc` is instantiated to
return `nan`: its true `np.corrcoef` value on a constant split indicator
(zero variance), which is the only input `cc` is consulted on in the
counterexample's trace (the single feature column is constant, so every
candidate mask is all-false). -/
def negCorrNanCfg : Config :=
  { criterion := "neg_corr", class_weight := Option.none, max_depth := 1,
    ec := fun _ _ => 0, cc := fun _ _ => Option.none }

/-- C6 (counterexample): under the `neg_corr` criterion, a constant
feature column below the `0.5` sentinel with non-pure labels makes every
correlation score `nan`, so no candidate ever updates the accumulator and
the cutoff stays at its `0.5` initial value; the right partition
`x[:, 0] >= 0.5` is then empty and the emitted split node records
`val_right = nan` (`Option.none`) with `val = 1/2`, so no rational `q`
witnesses `val_right = q ∧ val ≤ q`: the claimed invariant
`val_right >= val` fails on this fit. -/
theorem fit_neg_corr_val_right_nan_counterexample :
    fit negCorrNanCfg [[0], [0]] [0, 1] 0 =
      Except.ok [Rule.split 0 (1 / 2) (1 / 2) false Option.none 2 0] ∧
    ¬ ∃ q : ℚ, (Option.none : Option ℚ) = some q ∧ (1 / 2 : ℚ) ≤ q := by
  refine ⟨by with_unfolding_all rfl, ?_⟩
  rintro ⟨q, hq, _⟩
  cases hq

/-- C6 (amended): for every rule list produced by `fit` under the default
`gini` criterion with no class weights, every split node satisfies
`val_right >= val` (with `val_right` an actual number, never `nan`), and
along the recursion every split node's partitions are swapped
(`flip = true`) exactly when both partition means exist and the left mean
exceeds the right mean.  The restriction to `gini` is forced by the
counterexample above: `neg_corr` can emit `val_right = nan`. -/
theorem fit_split_val_right_ge_val (cfg : Config)
    (hcrit : cfg.criterion = "gini") (hcw : cfg.class_weight = Option.none)
    (x : List (List ℚ)) (y : List ℚ) (depth : ℕ) (rules : List Rule)
    (hlen : x.length = y.length)
    (hfit : fit cfg x y depth = Except.ok rules) :
    SplitInvariant x y rules := by
  unfold fit at hfit
  exact fitGo_split_invariant cfg hcrit hcw (cfg.max_depth - depth) x y depth
    rules hlen hfit

/-- C6 (witness): the invariant theorem applied to a concrete fit whose
produced list is `[split(col 0, cutoff 2, val 1/2, val_right 1), leaf]`. -/
theorem fit_split_val_right_ge_val_witness :
    SplitInvariant [[1], [2]] [0, 1]
      [Rule.split 0 2 (1 / 2) false (some 1) 2 1, Rule.leaf 0 1] :=
  fit_split_val_right_ge_val giniCfg rfl rfl [[1], [2]] [0, 1] 0
    [Rule.split 0 2 (1 / 2) false (some 1) 2 1, Rule.leaf 0 1] rfl
    (by with_unfolding_all rfl)

end GreedyRuleList
